import Mathlib

/-!
Verification model of the personal_scribe recorder pipeline.

The development embeds the three source modules:
  - scripts/recorder.py  : AudioRecorder.record, AudioRecorder.continuous_record,
                           AudioRecorder._consolidate_recordings
  - scripts/transcriber.py : WhisperTranscriber.transcribe and _save_transcript
  - main.py              : interactive selection in _transcribe_recording and
                           _delete_recording

File names are modelled as lists of character codes, wav files as a sample
rate plus a list of samples, and a directory as an association list from
names to file contents.
-/

/-- A file name, as the list of its character code points. -/
abbrev FName := List Nat

/-- Character codes of a string literal. -/
def codes (s : String) : FName := s.data.map Char.toNat

/-- Strict lexicographic order on code-point lists, as Python compares
strings (and hence Path objects restricted to one directory). -/
def lexLt : FName → FName → Bool
  | _, [] => false
  | [], _ :: _ => true
  | a :: as, b :: bs =>
      if a < b then true else if b < a then false else lexLt as bs

/-- The sort relation used by the model of Python sorted(): x before y
when y is not strictly below x. -/
def NameLE (x y : FName) : Prop := lexLt y x = false

instance : DecidableRel NameLE := fun x y => by
  unfold NameLE; infer_instance

/-- Decimal digit list of n, most significant first, empty for 0;
fuel-based so that it reduces by evaluation. -/
def decRep : Nat → Nat → List Nat
  | 0, _ => []
  | fuel + 1, n => if n = 0 then [] else decRep fuel (n / 10) ++ [n % 10]

/-- The code points of Python format "%04d" applied to n: decimal digits
left-padded with zeros to width four. -/
def pad4 (n : Nat) : FName :=
  (List.replicate (4 - (decRep n n).length) 0 ++ decRep n n).map (fun d => 48 + d)

/-- Name of a chunk file, Python f-string
"chunk_{session_id}_{chunk_num:04d}" plus the ".wav" suffix appended by
AudioRecorder.record. -/
def chunkName (session : FName) (seq : Nat) : FName :=
  codes "chunk_" ++ session ++ codes "_" ++ pad4 seq ++ codes ".wav"

/-- A wav file: sample rate and samples (int16 values, arithmetic-free
here, so plain integers). -/
structure Wav where
  rate : Nat
  samples : List Int
deriving DecidableEq, Repr

/-- The recordings directory: an association list from file names to wav
contents. -/
abbrev FS := List (FName × Wav)

/-- Reading a file: first binding of the name in the directory. -/
def lookupFS : FS → FName → Option Wav
  | [], _ => none
  | (n, w) :: fs, m => if n = m then some w else lookupFS fs m

/-- Does p lead (start) the list n? -/
def leadsWith : FName → FName → Bool
  | [], _ => true
  | _ :: _, [] => false
  | p :: ps, n :: ns => p == n && leadsWith ps ns

/-- Membership in glob "chunk_{session_id}_*.wav": the name starts with
the chunk-and-session front, ends with ".wav", and is long enough that
the star matches some (possibly empty) middle. -/
def globMatch (session : FName) (name : FName) : Bool :=
  let front := codes "chunk_" ++ session ++ codes "_"
  leadsWith front name &&
    decide (front.length + 4 ≤ name.length) &&
    decide (name.drop (name.length - 4) = codes ".wav")

/-- The chunk list computed by _consolidate_recordings:
sorted(self.output_dir.glob(pattern)), a stable sort of the matching
names by string order. -/
def matchedChunks (fs : FS) (session : FName) : List FName :=
  List.insertionSort NameLE ((fs.map Prod.fst).filter (globMatch session))

/-- Outcome of _consolidate_recordings: the early return None when no
chunk matches, the returned output path (with the written contents), or
the exception raised when writing the output file fails. -/
inductive ConsolidateOutcome where
  | notFound : ConsolidateOutcome
  | ok (out : FName × Wav) : ConsolidateOutcome
  | writeFailed : ConsolidateOutcome
deriving DecidableEq, Repr

/-- AudioRecorder._consolidate_recordings for pattern
"chunk_{session}_*.wav". Lists and sorts the matching chunks, returns
notFound when there are none, reads every chunk, takes the sample rate
of the first, concatenates the sample buffers in list order, writes the
output file (writeOk models whether that write succeeds), and only then,
when removeChunks is set, unlinks every source chunk. -/
def consolidateFS (fs : FS) (session outName : FName)
    (removeChunks writeOk : Bool) : ConsolidateOutcome × FS :=
  let names := matchedChunks fs session
  if names.isEmpty then (.notFound, fs)
  else
    let dataList := names.map (fun n => (lookupFS fs n).getD ⟨0, []⟩)
    if dataList.isEmpty then (.notFound, fs)
    else
      let rate := ((dataList.head?).map Wav.rate).getD 0
      let combined : List Int := (dataList.map Wav.samples).flatten
      if writeOk then
        let fs1 : FS := (outName, ⟨rate, combined⟩) :: fs
        let fs2 : FS :=
          if removeChunks then fs1.filter (fun e => !(names.contains e.1)) else fs1
        (.ok (outName, ⟨rate, combined⟩), fs2)
      else (.writeFailed, fs)

example :
    consolidateFS
      [(chunkName (codes "S") 1, ⟨16000, [2]⟩), (chunkName (codes "S") 0, ⟨16000, [1]⟩)]
      (codes "S") (codes "consolidated_T.wav") true true =
    (.ok (codes "consolidated_T.wav", ⟨16000, [1, 2]⟩),
      [(codes "consolidated_T.wav", ⟨16000, [1, 2]⟩)]) := by decide

/-! ### Order facts about lexLt -/

lemma lexLt_irrefl (x : FName) : lexLt x x = false := by
  induction x with
  | nil => rfl
  | cons a as ih => simp [lexLt, ih]

lemma lexLt_asymm {x y : FName} (h : lexLt x y = true) : lexLt y x = false := by
  induction x generalizing y with
  | nil =>
      cases y with
      | nil => simp [lexLt] at h ⊢
      | cons b bs => simp [lexLt]
  | cons a as ih =>
      cases y with
      | nil => simp [lexLt] at h
      | cons b bs =>
          simp only [lexLt] at h ⊢
          rcases Nat.lt_trichotomy a b with hab | hab | hab
          · simp [hab, Nat.not_lt.mpr (Nat.le_of_lt hab), Nat.lt_irrefl]
          · subst hab
            simp only [if_neg (Nat.lt_irrefl a)] at h ⊢
            exact ih (by simpa using h)
          · simp [hab, Nat.not_lt.mpr (Nat.le_of_lt hab)] at h

lemma lexLt_total_of_ne {x y : FName} (h : x ≠ y) :
    lexLt x y = true ∨ lexLt y x = true := by
  induction x generalizing y with
  | nil =>
      cases y with
      | nil => exact absurd rfl h
      | cons b bs => left; rfl
  | cons a as ih =>
      cases y with
      | nil => right; rfl
      | cons b bs =>
          rcases Nat.lt_trichotomy a b with hab | hab | hab
          · left; simp [lexLt, hab]
          · subst hab
            have hne : as ≠ bs := by intro hh; exact h (by rw [hh])
            rcases ih hne with h1 | h1
            · left; simp [lexLt, h1]
            · right; simp [lexLt, h1]
          · right; simp [lexLt, hab]

lemma lexLt_trans {x y z : FName} (h1 : lexLt x y = true) (h2 : lexLt y z = true) :
    lexLt x z = true := by
  induction x generalizing y z with
  | nil =>
      cases z with
      | nil =>
          cases y with
          | nil => exact h1
          | cons b bs => simp [lexLt] at h2
      | cons c cs => rfl
  | cons a as ih =>
      cases y with
      | nil => simp [lexLt] at h1
      | cons b bs =>
          cases z with
          | nil => simp [lexLt] at h2
          | cons c cs =>
              simp only [lexLt] at h1 h2 ⊢
              rcases Nat.lt_trichotomy a b with hab | hab | hab
              · rcases Nat.lt_trichotomy b c with hbc | hbc | hbc
                · simp [Nat.lt_trans hab hbc]
                · subst hbc; simp [hab]
                · simp [hbc, Nat.not_lt.mpr (Nat.le_of_lt hbc)] at h2
              · subst hab
                simp only [if_neg (Nat.lt_irrefl a)] at h1
                rcases Nat.lt_trichotomy a c with hbc | hbc | hbc
                · simp [hbc]
                · subst hbc
                  simp only [if_neg (Nat.lt_irrefl a)] at h2 ⊢
                  exact ih (by simpa using h1) (by simpa using h2)
                · simp [hbc, Nat.not_lt.mpr (Nat.le_of_lt hbc)] at h2
              · simp [hab, Nat.not_lt.mpr (Nat.le_of_lt hab)] at h1

instance : IsTotal FName NameLE :=
  ⟨fun x y => by
    by_cases h : x = y
    · subst h; left; exact lexLt_irrefl x
    · rcases lexLt_total_of_ne h with h1 | h1
      · left; exact lexLt_asymm h1
      · right; exact lexLt_asymm h1⟩

instance : IsTrans FName NameLE :=
  ⟨fun x y z h1 h2 => by
    unfold NameLE at h1 h2 ⊢
    by_cases hzx : lexLt z x = true
    · by_cases hzy : z = y
      · subst hzy; exact absurd hzx (by simp [h1])
      · rcases lexLt_total_of_ne hzy with ha | ha
        · exact absurd ha (by simp [h2])
        · exact absurd (lexLt_trans ha hzx) (by simp [h1])
    · simpa using hzx⟩

instance : IsAntisymm FName NameLE :=
  ⟨fun x y h1 h2 => by
    unfold NameLE at h1 h2
    by_cases h : x = y
    · exact h
    · rcases lexLt_total_of_ne h with ha | ha
      · exact absurd ha (by simp [h2])
      · exact absurd ha (by simp [h1])⟩

lemma lexLt_append_same (p x y : FName) :
    lexLt (p ++ x) (p ++ y) = lexLt x y := by
  induction p with
  | nil => rfl
  | cons a as ih => simp [lexLt, ih]

lemma lexLt_append_of_length_eq {x y : FName} (t u : FName)
    (hlen : x.length = y.length) (h : lexLt x y = true) :
    lexLt (x ++ t) (y ++ u) = true := by
  induction x generalizing y with
  | nil =>
      cases y with
      | nil => simp [lexLt] at h
      | cons b bs => simp at hlen
  | cons a as ih =>
      cases y with
      | nil => simp at hlen
      | cons b bs =>
          simp only [lexLt, List.cons_append] at h ⊢
          rcases Nat.lt_trichotomy a b with hab | hab | hab
          · simp [hab]
          · subst hab
            simp only [if_neg (Nat.lt_irrefl a)] at h ⊢
            exact ih (by simpa using hlen) (by simpa using h)
          · simp [hab, Nat.not_lt.mpr (Nat.le_of_lt hab)] at h

/-! ### The zero-padded four-digit format -/

lemma decRep_zero_val (fuel : Nat) : decRep fuel 0 = [] := by
  cases fuel <;> simp [decRep]

lemma decRep_one_digit {fuel n : Nat} (hf : 1 ≤ fuel) (h0 : 0 < n) (h : n < 10) :
    decRep fuel n = [n] := by
  cases fuel with
  | zero => omega
  | succ f =>
      have hn : n ≠ 0 := by omega
      have hdiv : n / 10 = 0 := Nat.div_eq_of_lt h
      have hmod : n % 10 = n := Nat.mod_eq_of_lt h
      simp [decRep, hn, hdiv, hmod, decRep_zero_val]

lemma decRep_two_digit {fuel n : Nat} (hf : 2 ≤ fuel) (h0 : 10 ≤ n) (h : n < 100) :
    decRep fuel n = [n / 10, n % 10] := by
  cases fuel with
  | zero => omega
  | succ f =>
      have hn : n ≠ 0 := by omega
      rw [decRep, if_neg hn, decRep_one_digit (by omega) (by omega) (by omega)]
      rfl

lemma decRep_three_digit {fuel n : Nat} (hf : 3 ≤ fuel) (h0 : 100 ≤ n) (h : n < 1000) :
    decRep fuel n = [n / 100, n / 10 % 10, n % 10] := by
  cases fuel with
  | zero => omega
  | succ f =>
      have hn : n ≠ 0 := by omega
      rw [decRep, if_neg hn, decRep_two_digit (by omega) (by omega) (by omega)]
      have : n / 10 / 10 = n / 100 := by omega
      rw [this]
      rfl

lemma decRep_four_digit {fuel n : Nat} (hf : 4 ≤ fuel) (h0 : 1000 ≤ n) (h : n < 10000) :
    decRep fuel n = [n / 1000, n / 100 % 10, n / 10 % 10, n % 10] := by
  cases fuel with
  | zero => omega
  | succ f =>
      have hn : n ≠ 0 := by omega
      rw [decRep, if_neg hn, decRep_three_digit (by omega) (by omega) (by omega)]
      have h1 : n / 10 / 100 = n / 1000 := by omega
      have h2 : n / 10 / 10 % 10 = n / 100 % 10 := by
        have : n / 10 / 10 = n / 100 := by omega
        rw [this]
      rw [h1, h2]
      rfl

/-- For sequence numbers below 10000, the %04d format is exactly four
digit characters. -/
lemma pad4_eq {n : Nat} (h : n < 10000) :
    pad4 n = [48 + n / 1000, 48 + n / 100 % 10, 48 + n / 10 % 10, 48 + n % 10] := by
  unfold pad4
  rcases Nat.lt_or_ge n 1 with h1 | h1
  · have hn : n = 0 := by omega
    subst hn; decide
  · rcases Nat.lt_or_ge n 10 with h2 | h2
    · rw [decRep_one_digit (by omega) (by omega) h2]
      simp only [List.length_cons, List.length_nil, List.replicate, List.cons_append,
        List.nil_append, List.map_cons, List.map_nil]
      have e1 : n / 1000 = 0 := by omega
      have e2 : n / 100 % 10 = 0 := by omega
      have e3 : n / 10 % 10 = 0 := by omega
      have e4 : n % 10 = n := by omega
      rw [e1, e2, e3, e4]
    · rcases Nat.lt_or_ge n 100 with h3 | h3
      · rw [decRep_two_digit (by omega) h2 h3]
        simp only [List.length_cons, List.length_nil, List.replicate, List.cons_append,
          List.nil_append, List.map_cons, List.map_nil]
        have e1 : n / 1000 = 0 := by omega
        have e2 : n / 100 % 10 = 0 := by omega
        have e3 : n / 10 % 10 = n / 10 := by omega
        rw [e1, e2, e3]
      · rcases Nat.lt_or_ge n 1000 with h4 | h4
        · rw [decRep_three_digit (by omega) h3 h4]
          simp only [List.length_cons, List.length_nil, List.replicate, List.cons_append,
            List.nil_append, List.map_cons, List.map_nil]
          have e1 : n / 1000 = 0 := by omega
          have e2 : n / 100 % 10 = n / 100 := by omega
          rw [e1, e2]
        · rw [decRep_four_digit (by omega) h4 h]
          simp [List.replicate]

lemma pad4_length {n : Nat} (h : n < 10000) : (pad4 n).length = 4 := by
  rw [pad4_eq h]; rfl

lemma lexLt_pad4 {a b : Nat} (ha : a < 10000) (hb : b < 10000) (hab : a < b) :
    lexLt (pad4 a) (pad4 b) = true := by
  rw [pad4_eq ha, pad4_eq hb]
  simp only [lexLt]
  split_ifs <;> first | rfl | omega

/-! ### Chunk names: order, injectivity, glob membership -/

lemma chunkName_eq_append (s : FName) (k : Nat) :
    chunkName s k = (codes "chunk_" ++ s ++ codes "_") ++ (pad4 k ++ codes ".wav") := by
  simp [chunkName, List.append_assoc]

lemma chunkName_lexLt (s : FName) {a b : Nat} (ha : a < 10000) (hb : b < 10000)
    (hab : a < b) : lexLt (chunkName s a) (chunkName s b) = true := by
  have key : lexLt (pad4 a ++ codes ".wav") (pad4 b ++ codes ".wav") = true :=
    lexLt_append_of_length_eq _ _ (by rw [pad4_length ha, pad4_length hb])
      (lexLt_pad4 ha hb hab)
  rw [chunkName_eq_append, chunkName_eq_append, lexLt_append_same]
  exact key

lemma chunkName_inj (s : FName) {a b : Nat} (ha : a < 10000) (hb : b < 10000)
    (h : chunkName s a = chunkName s b) : a = b := by
  by_contra hne
  rcases Nat.lt_or_ge a b with hab | hab
  · have := chunkName_lexLt s ha hb hab
    rw [h] at this
    exact absurd this (by simp [lexLt_irrefl])
  · have hba : b < a := by omega
    have := chunkName_lexLt s hb ha hba
    rw [h] at this
    exact absurd this (by simp [lexLt_irrefl])

lemma leadsWith_append_self (p r : FName) : leadsWith p (p ++ r) = true := by
  induction p with
  | nil => rfl
  | cons a as ih => simp [leadsWith, ih]

lemma globMatch_chunkName {s : FName} {k : Nat} (hk : k < 10000) :
    globMatch s (chunkName s k) = true := by
  have hlen4 : (pad4 k).length = 4 := pad4_length hk
  rw [globMatch, chunkName_eq_append]
  set F := codes "chunk_" ++ s ++ codes "_" with hF
  have hwav : (codes ".wav").length = 4 := by decide
  have hlen : (F ++ (pad4 k ++ codes ".wav")).length = F.length + 8 := by
    simp [List.length_append, hlen4, hwav]
  simp only [Bool.and_eq_true, decide_eq_true_eq]
  refine ⟨⟨leadsWith_append_self _ _, ?_⟩, ?_⟩
  · rw [hlen]; omega
  · rw [hlen]
    have hre : F ++ (pad4 k ++ codes ".wav") = (F ++ pad4 k) ++ codes ".wav" := by
      simp [List.append_assoc]
    have hflen : (F ++ pad4 k).length = F.length + 8 - 4 := by
      simp [List.length_append, hlen4]
    rw [hre, ← hflen, List.drop_left]

/-! ### The consolidation specification -/

/-- The chunk file a session writes for one (sequence number, samples)
pair at a given sample rate. -/
def chunkEntry (s : FName) (r : Nat) (p : Nat × List Int) : FName × Wav :=
  (chunkName s p.1, ⟨r, p.2⟩)

/-- Ascending sequence-number order on (sequence number, samples) pairs. -/
def seqSort (ps : List (Nat × List Int)) : List (Nat × List Int) :=
  List.insertionSort (fun p q => p.1 ≤ q.1) ps

instance : IsTotal (Nat × List Int) (fun p q => p.1 ≤ q.1) :=
  ⟨fun a b => Nat.le_total a.1 b.1⟩

instance : IsTrans (Nat × List Int) (fun p q => p.1 ≤ q.1) :=
  ⟨fun _ _ _ => Nat.le_trans⟩

lemma lookupFS_eq_of_mem {fs : FS} (hnd : (fs.map Prod.fst).Nodup)
    {n : FName} {w : Wav} (hm : (n, w) ∈ fs) : lookupFS fs n = some w := by
  induction fs with
  | nil => cases hm
  | cons e t ih =>
      obtain ⟨m, v⟩ := e
      rcases List.mem_cons.mp hm with he | ht
      · obtain ⟨h1, h2⟩ := Prod.mk.injEq .. ▸ he
        cases he
        simp [lookupFS]
      · by_cases hmn : m = n
        · subst hmn
          exfalso
          have : m ∈ t.map Prod.fst := List.mem_map.mpr ⟨(m, w), ht, rfl⟩
          exact (List.nodup_cons.mp hnd).1 this
        · simp only [lookupFS, if_neg hmn]
          exact ih (List.nodup_cons.mp hnd).2 ht

lemma seqSort_perm (ps : List (Nat × List Int)) : List.Perm (seqSort ps) ps :=
  List.perm_insertionSort _ ps

/-- The chunk list _consolidate_recordings computes, for a directory
whose matching files are exactly the chunk files of one session with
distinct sequence numbers below 10000, in any listing order: it is the
chunk names in ascending sequence-number order. -/
lemma matchedChunks_spec (s : FName) (r : Nat) (ps : List (Nat × List Int)) (fs : FS)
    (hlt : ∀ p ∈ ps, p.1 < 10000)
    (hnd : (ps.map Prod.fst).Nodup)
    (hperm : List.Perm fs (ps.map (chunkEntry s r))) :
    matchedChunks fs s = (seqSort ps).map (fun p => chunkName s p.1) := by
  have hkeys : List.Perm (fs.map Prod.fst) (ps.map (fun p => chunkName s p.1)) := by
    have h1 := hperm.map Prod.fst
    have h2 : (ps.map (chunkEntry s r)).map Prod.fst = ps.map (fun p => chunkName s p.1) := by
      simp [chunkEntry, List.map_map, Function.comp]
    rw [h2] at h1
    exact h1
  have hall : ∀ n ∈ ps.map (fun p => chunkName s p.1), globMatch s n = true := by
    intro n hn
    obtain ⟨p, hp, rfl⟩ := List.mem_map.mp hn
    exact globMatch_chunkName (hlt p hp)
  have hfiltered :
      List.Perm ((fs.map Prod.fst).filter (globMatch s))
        (ps.map (fun p => chunkName s p.1)) := by
    have := List.Perm.filter (globMatch s) hkeys
    rwa [List.filter_eq_self.mpr hall] at this
  have hpermTgt :
      List.Perm (matchedChunks fs s) ((seqSort ps).map (fun p => chunkName s p.1)) := by
    have h1 : List.Perm (matchedChunks fs s) ((fs.map Prod.fst).filter (globMatch s)) :=
      List.perm_insertionSort _ _
    have h2 : List.Perm ((seqSort ps).map (fun p => chunkName s p.1))
        (ps.map (fun p => chunkName s p.1)) := (seqSort_perm ps).map _
    exact (h1.trans hfiltered).trans h2.symm
  have hsortedA : List.Sorted NameLE (matchedChunks fs s) :=
    List.sorted_insertionSort _ _
  have hsortedT : List.Sorted NameLE ((seqSort ps).map (fun p => chunkName s p.1)) := by
    have hsortSeq : List.Sorted (fun p q : Nat × List Int => p.1 ≤ q.1) (seqSort ps) :=
      List.sorted_insertionSort _ _
    have hndSeq : List.Pairwise (fun p q : Nat × List Int => p.1 ≠ q.1) (seqSort ps) := by
      have : ((seqSort ps).map Prod.fst).Nodup :=
        ((seqSort_perm ps).map Prod.fst).symm.nodup hnd
      exact List.pairwise_map.mp this
    have hcomb := hsortSeq.and hndSeq
    rw [List.Sorted, List.pairwise_map]
    refine List.Pairwise.imp_of_mem ?_ hcomb
    intro p q hp hq hpq
    have hlp : p.1 < 10000 := hlt p ((seqSort_perm ps).mem_iff.mp hp)
    have hlq : q.1 < 10000 := hlt q ((seqSort_perm ps).mem_iff.mp hq)
    have hlt2 : p.1 < q.1 := Nat.lt_of_le_of_ne hpq.1 hpq.2
    exact lexLt_asymm (chunkName_lexLt s hlp hlq hlt2)
  exact List.eq_of_perm_of_sorted hpermTgt hsortedA hsortedT

set_option maxHeartbeats 2000000 in
/-- Full behaviour of _consolidate_recordings on a directory holding
exactly the chunk files of one session (distinct sequence numbers below
10000, any listing order), with remove_chunks set and a succeeding
output write: it returns the output file holding the concatenation of
the chunk buffers in ascending sequence-number order, and the directory
afterwards holds exactly that output file. -/
lemma consolidate_spec (s : FName) (r : Nat) (ps : List (Nat × List Int)) (fs : FS)
    (out : FName)
    (hne : ps ≠ [])
    (hlt : ∀ p ∈ ps, p.1 < 10000)
    (hnd : (ps.map Prod.fst).Nodup)
    (hperm : List.Perm fs (ps.map (chunkEntry s r)))
    (hout : globMatch s out = false) :
    consolidateFS fs s out true true =
      (.ok (out, ⟨r, ((seqSort ps).map Prod.snd).flatten⟩),
       [(out, ⟨r, ((seqSort ps).map Prod.snd).flatten⟩)]) := by
  have hmc := matchedChunks_spec s r ps fs hlt hnd hperm
  have hseqne : seqSort ps ≠ [] := by
    intro h
    have h2 : List.Perm ([] : List (Nat × List Int)) ps := by
      rw [← h]; exact seqSort_perm ps
    exact hne h2.symm.eq_nil
  obtain ⟨q, t, hqt⟩ := List.exists_cons_of_ne_nil hseqne
  have hkeyperm : List.Perm (fs.map Prod.fst) (ps.map (fun p => chunkName s p.1)) := by
    have h1 := hperm.map Prod.fst
    have h2 : (ps.map (chunkEntry s r)).map Prod.fst = ps.map (fun p => chunkName s p.1) := by
      simp [chunkEntry, List.map_map, Function.comp]
    rw [h2] at h1
    exact h1
  have hkeysnd : (fs.map Prod.fst).Nodup := by
    have hcns : (ps.map (fun p => chunkName s p.1)).Nodup := by
      refine List.Nodup.map_on ?_ (List.Nodup.of_map Prod.fst hnd)
      intro x hx y hy hxy
      have hfst : x.1 = y.1 := chunkName_inj s (hlt x hx) (hlt y hy) hxy
      exact List.inj_on_of_nodup_map hnd hx hy hfst
    exact hkeyperm.symm.nodup hcns
  have hlook : ∀ p ∈ seqSort ps, lookupFS fs (chunkName s p.1) = some ⟨r, p.2⟩ := by
    intro p hp
    have hpin : p ∈ ps := (seqSort_perm ps).mem_iff.mp hp
    have hmem : (chunkName s p.1, (⟨r, p.2⟩ : Wav)) ∈ fs := by
      refine hperm.mem_iff.mpr ?_
      exact List.mem_map.mpr ⟨p, hpin, rfl⟩
    exact lookupFS_eq_of_mem hkeysnd hmem
  have hdata :
      ((seqSort ps).map (fun p => chunkName s p.1)).map
          (fun n => (lookupFS fs n).getD ⟨0, []⟩) =
        (seqSort ps).map (fun p => (⟨r, p.2⟩ : Wav)) := by
    rw [List.map_map]
    refine List.map_congr_left ?_
    intro p hp
    simp only [Function.comp_apply, hlook p hp, Option.getD_some]
  have hmemtgt : ∀ n, n ∈ (seqSort ps).map (fun p => chunkName s p.1) ↔
      n ∈ ps.map (fun p => chunkName s p.1) :=
    fun n => ((seqSort_perm ps).map (fun p => chunkName s p.1)).mem_iff
  have hcontains : ∀ e ∈ fs, e.1 ∈ (seqSort ps).map (fun p => chunkName s p.1) := by
    intro e he
    have h0 : e.1 ∈ fs.map Prod.fst := List.mem_map.mpr ⟨e, he, rfl⟩
    have hin : e.1 ∈ ps.map (fun p => chunkName s p.1) := hkeyperm.mem_iff.mp h0
    exact (hmemtgt e.1).mpr hin
  have houtnot : out ∉ (seqSort ps).map (fun p => chunkName s p.1) := by
    intro hc
    have hin := (hmemtgt out).mp hc
    obtain ⟨p, hp, hpe⟩ := List.mem_map.mp hin
    have hgm : globMatch s out = true := by
      rw [← hpe]
      exact globMatch_chunkName (hlt p hp)
    rw [hout] at hgm
    cases hgm
  have hfilter : fs.filter
      (fun e => !decide (e.1 ∈ (seqSort ps).map (fun p => chunkName s p.1))) = [] := by
    rw [List.filter_eq_nil_iff]
    intro e he
    simp [hcontains e he]
  have hisE : (((seqSort ps).map (fun p => chunkName s p.1)).isEmpty) = false := by
    rw [hqt]; rfl
  have hisE2 : (((seqSort ps).map (fun p => (⟨r, p.2⟩ : Wav))).isEmpty) = false := by
    rw [hqt]; rfl
  have hhead : (((seqSort ps).map (fun p => (⟨r, p.2⟩ : Wav))).head?) = some ⟨r, q.2⟩ := by
    rw [hqt]; rfl
  have hsamp : (((seqSort ps).map (fun p => (⟨r, p.2⟩ : Wav))).map Wav.samples) =
      (seqSort ps).map Prod.snd := by
    rw [List.map_map]; rfl
  simp only [consolidateFS, hmc, hdata]
  simp [hisE, hisE2, hhead, hsamp, houtnot, hfilter]

lemma chunkNames_nodup (s : FName) (ps : List (Nat × List Int))
    (hlt : ∀ p ∈ ps, p.1 < 10000) (hnd : (ps.map Prod.fst).Nodup) :
    (ps.map (fun p => chunkName s p.1)).Nodup := by
  refine List.Nodup.map_on ?_ (List.Nodup.of_map Prod.fst hnd)
  intro x hx y hy hxy
  have hfst : x.1 = y.1 := chunkName_inj s (hlt x hx) (hlt y hy) hxy
  exact List.inj_on_of_nodup_map hnd hx hy hfst

set_option maxHeartbeats 2000000 in
/-- C1. For a non-empty set of chunk files of one session (distinct
sequence numbers, zero-padded to four digits), presented to the
directory in any listing order, consolidation returns an output buffer
equal to the concatenation of the chunk buffers in ascending
sequence-number order, with total sample count the sum of the chunk
sample counts; the chunk list it reads is duplicate-free, and the
output does not depend on the listing order. -/
theorem consolidation_concatenates_in_sequence_order
    (s : FName) (r : Nat) (ps : List (Nat × List Int)) (fs : FS) (out : FName)
    (hne : ps ≠ [])
    (hlt : ∀ p ∈ ps, p.1 < 10000)
    (hnd : (ps.map Prod.fst).Nodup)
    (hperm : List.Perm fs (ps.map (chunkEntry s r)))
    (hout : globMatch s out = false) :
    (consolidateFS fs s out true true).1 =
      .ok (out, ⟨r, ((seqSort ps).map Prod.snd).flatten⟩) ∧
    (((seqSort ps).map Prod.snd).flatten).length =
      (ps.map (fun p => p.2.length)).sum ∧
    (matchedChunks fs s).Nodup := by
  have h := consolidate_spec s r ps fs out hne hlt hnd hperm hout
  refine ⟨by rw [h], ?_, ?_⟩
  · rw [List.length_flatten, List.map_map]
    refine List.Perm.sum_eq ?_
    have := (seqSort_perm ps).map (fun p => p.2.length)
    simpa [Function.comp] using this
  · rw [matchedChunks_spec s r ps fs hlt hnd hperm]
    have hcns := chunkNames_nodup s ps hlt hnd
    exact ((seqSort_perm ps).map (fun p => chunkName s p.1)).symm.nodup hcns

/-- Witness for C1 at a concrete two-chunk session listed out of
order. -/
theorem consolidation_concatenates_in_sequence_order_witness :
    ([((1 : Nat), [(10 : Int)]), (0, [20, 21])] ≠ []) ∧
    (consolidateFS
        [(chunkName (codes "A") 0, ⟨8000, [20, 21]⟩),
         (chunkName (codes "A") 1, ⟨8000, [10]⟩)]
        (codes "A") (codes "consolidated_1.wav") true true).1 =
      .ok (codes "consolidated_1.wav", ⟨8000, [20, 21, 10]⟩) := by
  refine ⟨by decide, ?_⟩
  have h := consolidation_concatenates_in_sequence_order
    (codes "A") 8000 [(1, [10]), (0, [20, 21])]
    [(chunkName (codes "A") 0, ⟨8000, [20, 21]⟩),
     (chunkName (codes "A") 1, ⟨8000, [10]⟩)]
    (codes "consolidated_1.wav")
    (by decide) (by decide) (by decide) (by decide) (by decide)
  have h2 := h.1
  rw [h2]
  decide

/-- C2. When writing the consolidated output file fails, the exception
propagates before any unlink runs: the directory is unchanged, so every
source chunk remains on disk. -/
theorem consolidation_write_failure_preserves_chunks
    (fs : FS) (session outName : FName) (removeChunks : Bool) :
    (consolidateFS fs session outName removeChunks false).2 = fs ∧
    ∀ o, (consolidateFS fs session outName removeChunks false).1 ≠ .ok o := by
  constructor
  · simp only [consolidateFS]
    split
    · rfl
    · split
      · rfl
      · simp
  · intro o
    simp only [consolidateFS]
    split
    · simp
    · split
      · simp
      · simp

/-- C8. When no chunk file matches the session pattern, consolidation
returns the notFound outcome and leaves the directory untouched; in
particular no output file is produced. -/
theorem consolidation_empty_session_not_found
    (fs : FS) (session outName : FName) (removeChunks writeOk : Bool)
    (h : (fs.map Prod.fst).filter (globMatch session) = []) :
    consolidateFS fs session outName removeChunks writeOk = (.notFound, fs) := by
  have hmc : matchedChunks fs session = [] := by
    rw [matchedChunks, h]
    rfl
  simp [consolidateFS, hmc]

/-- Witness for C8: a directory holding one unrelated file and no chunk
of session B. -/
theorem consolidation_empty_session_not_found_witness :
    ((([(codes "consolidated_X.wav", (⟨44100, [3]⟩ : Wav))] : FS).map
        Prod.fst).filter (globMatch (codes "B")) = []) ∧
    consolidateFS [(codes "consolidated_X.wav", ⟨44100, [3]⟩)] (codes "B")
        (codes "out.wav") true true =
      (.notFound, [(codes "consolidated_X.wav", ⟨44100, [3]⟩)]) := by
  refine ⟨by decide, ?_⟩
  exact consolidation_empty_session_not_found _ _ _ _ _ (by decide)

/-! ### The session loop: AudioRecorder.continuous_record -/

/-- Inputs of one continuous_record run. chunkData i is the sample
buffer the audio backend delivers for iteration i; maxRecordings is the
Python max_recordings argument (an unbounded int, default 60); stopAt i
means a KeyboardInterrupt is delivered during iteration i, while the
blocking capture of chunk i is still in progress and before its file is
written; cbFails i means the per-chunk callback raises an ordinary
exception on the chunk of iteration i; doConsolidate and outName feed
the consolidation performed in the KeyboardInterrupt handler. -/
structure SessCfg where
  session : FName
  rate : Nat
  chunkData : Nat → List Int
  maxRecordings : Int
  stopAt : Nat → Bool
  hasCallback : Bool
  cbFails : Nat → Bool
  doConsolidate : Bool
  outName : FName

/-- How a continuous_record run ends: the KeyboardInterrupt handler ran
(after consolidating, when requested), the chunk-count break fired, an
uncaught callback exception propagated out, or the run is still going
when the observation fuel is exhausted. The payload is the value of
chunk_num at that point; the Python function itself returns None in
every case. -/
inductive SessionEnd where
  | interrupted (count : Nat)
  | ceilingBreak (count : Nat)
  | callbackError (count : Nat)
  | outOfFuel (count : Nat)
deriving DecidableEq, Repr

/-- One unfolding of the while-True loop of continuous_record, with
chunk_num = n. In iteration n the loop captures chunk n and writes its
file (unless the interrupt arrives during the blocking capture, in
which case no file for chunk n exists), runs the callback (an exception
there propagates uncaught, past the KeyboardInterrupt handler),
increments chunk_num, and applies the Python break test
`max_recordings and chunk_num >= max_recordings`, where an int is
truthy exactly when it is nonzero. -/
def continuousRecordAux (cfg : SessCfg) : Nat → Nat → FS → SessionEnd × FS
  | 0, n, fs => (.outOfFuel n, fs)
  | fuel + 1, n, fs =>
    if cfg.stopAt n then
      if cfg.doConsolidate then
        (.interrupted n, (consolidateFS fs cfg.session cfg.outName true true).2)
      else (.interrupted n, fs)
    else
      let fs1 : FS := (chunkName cfg.session n, ⟨cfg.rate, cfg.chunkData n⟩) :: fs
      if cfg.hasCallback && cfg.cbFails n then (.callbackError n, fs1)
      else
        if cfg.maxRecordings ≠ 0 ∧ ((n + 1 : Nat) : Int) ≥ cfg.maxRecordings then
          (.ceilingBreak (n + 1), fs1)
        else continuousRecordAux cfg fuel (n + 1) fs1

/-- AudioRecorder.continuous_record: the loop starting at chunk_num 0 on
an empty recordings directory. -/
def continuousRecord (cfg : SessCfg) (fuel : Nat) : SessionEnd × FS :=
  continuousRecordAux cfg fuel 0 []

/-- The chunk files written by iterations start..start+len-1, newest
first, as the directory accumulates them. -/
def chunkFilesDesc (cfg : SessCfg) (start len : Nat) : FS :=
  ((List.range' start len).reverse).map
    (fun i => (chunkName cfg.session i, ⟨cfg.rate, cfg.chunkData i⟩))

lemma chunkFilesDesc_zero (cfg : SessCfg) (start : Nat) :
    chunkFilesDesc cfg start 0 = [] := rfl

lemma chunkFilesDesc_succ (cfg : SessCfg) (start len : Nat) :
    chunkFilesDesc cfg start (len + 1) =
      chunkFilesDesc cfg (start + 1) len ++
        [(chunkName cfg.session start, ⟨cfg.rate, cfg.chunkData start⟩)] := by
  unfold chunkFilesDesc
  rw [List.range'_succ]
  simp

lemma run_to_ceiling (cfg : SessCfg) (m : Nat)
    (hm : cfg.maxRecordings = (m : Int)) (hmpos : 0 < m)
    (hstop : ∀ i, cfg.stopAt i = false)
    (hcb : ∀ i, (cfg.hasCallback && cfg.cbFails i) = false) :
    ∀ fuel n fs, n < m → m - n ≤ fuel →
      continuousRecordAux cfg fuel n fs =
        (.ceilingBreak m, chunkFilesDesc cfg n (m - n) ++ fs) := by
  intro fuel
  induction fuel with
  | zero => intro n fs hn hf; omega
  | succ f ih =>
      intro n fs hn hf
      simp only [continuousRecordAux, hstop n, hcb n, Bool.false_eq_true, if_false]
      by_cases hend : m = n + 1
      · have hcond : cfg.maxRecordings ≠ 0 ∧ ((n + 1 : Nat) : Int) ≥ cfg.maxRecordings := by
          rw [hm]
          constructor
          · exact_mod_cast Nat.pos_iff_ne_zero.mp hmpos
          · exact_mod_cast Nat.le_of_eq hend
        rw [if_pos hcond]
        have hlen : m - n = 1 := by omega
        rw [hlen, chunkFilesDesc_succ, chunkFilesDesc_zero, hend]
        simp
      · have hcond : ¬(cfg.maxRecordings ≠ 0 ∧ ((n + 1 : Nat) : Int) ≥ cfg.maxRecordings) := by
          rw [hm]
          intro hc
          have : (m : Int) ≤ ((n + 1 : Nat) : Int) := hc.2
          have : m ≤ n + 1 := by exact_mod_cast this
          omega
        rw [if_neg hcond]
        rw [ih (n + 1) _ (by omega) (by omega)]
        have hsplit : chunkFilesDesc cfg n (m - n) =
            chunkFilesDesc cfg (n + 1) (m - (n + 1)) ++
              [(chunkName cfg.session n, ⟨cfg.rate, cfg.chunkData n⟩)] := by
          have hmn : m - n = (m - (n + 1)) + 1 := by omega
          rw [hmn, chunkFilesDesc_succ]
        rw [hsplit]
        simp

lemma run_zero_ceiling (cfg : SessCfg)
    (hm : cfg.maxRecordings = 0)
    (hstop : ∀ i, cfg.stopAt i = false)
    (hcb : ∀ i, (cfg.hasCallback && cfg.cbFails i) = false) :
    ∀ fuel n fs,
      continuousRecordAux cfg fuel n fs =
        (.outOfFuel (n + fuel), chunkFilesDesc cfg n fuel ++ fs) := by
  intro fuel
  induction fuel with
  | zero => intro n fs; simp [continuousRecordAux, chunkFilesDesc_zero]
  | succ f ih =>
      intro n fs
      simp only [continuousRecordAux, hstop n, hcb n, Bool.false_eq_true, if_false]
      rw [if_neg (by rw [hm]; simp)]
      rw [ih (n + 1)]
      have hsplit : chunkFilesDesc cfg n (f + 1) =
          chunkFilesDesc cfg (n + 1) f ++
            [(chunkName cfg.session n, ⟨cfg.rate, cfg.chunkData n⟩)] :=
        chunkFilesDesc_succ cfg n f
      rw [hsplit]
      have hc : n + 1 + f = n + (f + 1) := by omega
      rw [hc]
      simp

lemma run_to_stop (cfg : SessCfg) (k : Nat)
    (hstop : ∀ i, i < k → cfg.stopAt i = false)
    (hk : cfg.stopAt k = true)
    (hcb : ∀ i, (cfg.hasCallback && cfg.cbFails i) = false)
    (hm : ∀ i, i < k → ¬(cfg.maxRecordings ≠ 0 ∧ ((i + 1 : Nat) : Int) ≥ cfg.maxRecordings)) :
    ∀ fuel n fs, n ≤ k → k - n < fuel →
      continuousRecordAux cfg fuel n fs =
        (if cfg.doConsolidate then
          (.interrupted k,
            (consolidateFS (chunkFilesDesc cfg n (k - n) ++ fs)
              cfg.session cfg.outName true true).2)
         else (.interrupted k, chunkFilesDesc cfg n (k - n) ++ fs)) := by
  intro fuel
  induction fuel with
  | zero => intro n fs hn hf; omega
  | succ f ih =>
      intro n fs hn hf
      rcases Nat.eq_or_lt_of_le hn with hnk | hnk
      · subst hnk
        simp only [continuousRecordAux, hk, if_true, Nat.sub_self,
          chunkFilesDesc_zero, List.nil_append]
      · simp only [continuousRecordAux, hstop n hnk, hcb n, Bool.false_eq_true, if_false]
        rw [if_neg (hm n hnk)]
        have harr : chunkFilesDesc cfg n (k - n) ++ fs =
            chunkFilesDesc cfg (n + 1) (k - (n + 1)) ++
              ((chunkName cfg.session n, (⟨cfg.rate, cfg.chunkData n⟩ : Wav)) :: fs) := by
          have hmn : k - n = (k - (n + 1)) + 1 := by omega
          rw [hmn, chunkFilesDesc_succ]
          simp
        rw [ih (n + 1) _ (by omega) (by omega), harr]

lemma run_to_cbfail (cfg : SessCfg) (k : Nat)
    (hstop : ∀ i, i ≤ k → cfg.stopAt i = false)
    (hcbtrue : cfg.hasCallback = true)
    (hcbf : ∀ i, i < k → cfg.cbFails i = false)
    (hcbk : cfg.cbFails k = true)
    (hm : ∀ i, i < k → ¬(cfg.maxRecordings ≠ 0 ∧ ((i + 1 : Nat) : Int) ≥ cfg.maxRecordings)) :
    ∀ fuel n fs, n ≤ k → k - n < fuel →
      continuousRecordAux cfg fuel n fs =
        (.callbackError k, chunkFilesDesc cfg n (k - n + 1) ++ fs) := by
  intro fuel
  induction fuel with
  | zero => intro n fs hn hf; omega
  | succ f ih =>
      intro n fs hn hf
      rcases Nat.eq_or_lt_of_le hn with hnk | hnk
      · subst hnk
        simp only [continuousRecordAux, hstop n (Nat.le_refl n), Bool.false_eq_true,
          if_false, hcbtrue, hcbk, Bool.and_self, if_true, Nat.sub_self]
        rw [chunkFilesDesc_succ, chunkFilesDesc_zero]
        simp
      · have hcbn : (cfg.hasCallback && cfg.cbFails n) = false := by
          rw [hcbtrue, hcbf n hnk]
          rfl
        simp only [continuousRecordAux, hstop n (Nat.le_of_lt hnk), hcbn,
          Bool.false_eq_true, if_false]
        rw [if_neg (hm n hnk)]
        rw [ih (n + 1) _ (by omega) (by omega)]
        have harr : chunkFilesDesc cfg n (k - n + 1) ++ fs =
            chunkFilesDesc cfg (n + 1) (k - (n + 1) + 1) ++
              ((chunkName cfg.session n, (⟨cfg.rate, cfg.chunkData n⟩ : Wav)) :: fs) := by
          have hmn : k - n + 1 = (k - (n + 1) + 1) + 1 := by omega
          rw [hmn, chunkFilesDesc_succ cfg n (k - (n + 1) + 1)]
          simp
        rw [harr]

/-! ### Session-loop claims -/

/-- A concrete session token of the timestamp shape the code generates. -/
def sampleSession : FName := codes "20250101_000000"

/-- Session with a negative chunk ceiling, no interrupts, no callback. -/
def cfgNegCeiling : SessCfg :=
  ⟨sampleSession, 16000, fun _ => [7], -1, fun _ => false, false, fun _ => false,
    true, codes "consolidated_X.wav"⟩

/-- C3 counterexample. With ceiling -1 the loop still records chunk 0
before the break test runs, so one chunk file exists and the final
count is 1, not 0. -/
theorem ceiling_nonpositive_counterexample :
    continuousRecord cfgNegCeiling 5 =
      (.ceilingBreak 1, [(chunkName sampleSession 0, ⟨16000, [7]⟩)]) ∧
    (continuousRecord cfgNegCeiling 5).2 ≠ [] := by decide

/-- C3 amended. The break test runs only after a chunk completes, so a
negative ceiling yields exactly one recorded chunk; a ceiling of zero is
falsy in Python, disabling the ceiling entirely, so the loop keeps
recording (one chunk per fuel unit) until stopped externally. -/
theorem ceiling_nonpositive_behavior
    (cfg : SessCfg)
    (hstop : ∀ i, cfg.stopAt i = false)
    (hcb : ∀ i, (cfg.hasCallback && cfg.cbFails i) = false) :
    (cfg.maxRecordings < 0 → ∀ fuel, 1 ≤ fuel →
        continuousRecord cfg fuel =
          (.ceilingBreak 1,
            [(chunkName cfg.session 0, ⟨cfg.rate, cfg.chunkData 0⟩)])) ∧
    (cfg.maxRecordings = 0 → ∀ fuel,
        continuousRecord cfg fuel = (.outOfFuel fuel, chunkFilesDesc cfg 0 fuel)) := by
  constructor
  · intro hneg fuel hfuel
    obtain ⟨f, rfl⟩ : ∃ f, fuel = f + 1 := ⟨fuel - 1, by omega⟩
    rw [continuousRecord]
    simp only [continuousRecordAux, hstop 0, hcb 0, Bool.false_eq_true, if_false]
    have hcond : cfg.maxRecordings ≠ 0 ∧ ((0 + 1 : Nat) : Int) ≥ cfg.maxRecordings := by
      have h1 : ((0 + 1 : Nat) : Int) = 1 := by norm_num
      rw [h1]
      constructor
      · omega
      · omega
    rw [if_pos hcond]
  · intro hz fuel
    have h := run_zero_ceiling cfg hz hstop hcb fuel 0 []
    rw [continuousRecord, h]
    simp

/-- Session with a zero chunk ceiling, no interrupts, no callback. -/
def cfgZeroCeiling : SessCfg :=
  ⟨sampleSession, 16000, fun _ => [7], 0, fun _ => false, false, fun _ => false,
    true, codes "consolidated_X.wav"⟩

/-- Witness for the amended C3: ceiling -1 gives one chunk; ceiling 0
with fuel 3 gives three chunks and no self-stop. -/
theorem ceiling_nonpositive_behavior_witness :
    continuousRecord cfgNegCeiling 2 =
      (.ceilingBreak 1, [(chunkName sampleSession 0, ⟨16000, [7]⟩)]) ∧
    continuousRecord cfgZeroCeiling 3 =
      (.outOfFuel 3, chunkFilesDesc cfgZeroCeiling 0 3) := by
  constructor
  · exact (ceiling_nonpositive_behavior cfgNegCeiling (fun _ => rfl) (fun _ => rfl)).1
      (by decide) 2 (by decide)
  · exact (ceiling_nonpositive_behavior cfgZeroCeiling (fun _ => rfl) (fun _ => rfl)).2
      rfl 3

/-- C7. With a positive ceiling C and no interrupt and no callback
failure, the session stops after exactly C chunks: the directory holds
chunk files for the contiguous zero-padded sequence numbers 0..C-1 (in
reverse creation order, as accumulated), there are exactly C of them,
and chunk_num is C at the break. -/
theorem ceiling_enforced (cfg : SessCfg) (m : Nat)
    (hm : cfg.maxRecordings = (m : Int)) (hmpos : 0 < m)
    (hstop : ∀ i, cfg.stopAt i = false)
    (hcb : ∀ i, (cfg.hasCallback && cfg.cbFails i) = false)
    (fuel : Nat) (hfuel : m ≤ fuel) :
    continuousRecord cfg fuel = (.ceilingBreak m, chunkFilesDesc cfg 0 m) ∧
    (chunkFilesDesc cfg 0 m).map Prod.fst =
      ((List.range m).map (chunkName cfg.session)).reverse ∧
    (chunkFilesDesc cfg 0 m).length = m := by
  refine ⟨?_, ?_, ?_⟩
  · have h := run_to_ceiling cfg m hm hmpos hstop hcb fuel 0 [] hmpos (by omega)
    rw [continuousRecord, h]
    simp
  · unfold chunkFilesDesc
    rw [List.map_map, ← List.range_eq_range', ← List.map_reverse]
    rfl
  · unfold chunkFilesDesc
    simp

/-- Witness for C7 with ceiling 3 and fuel 5. -/
theorem ceiling_enforced_witness :
    continuousRecord
        ⟨sampleSession, 16000, fun i => [(i : Int)], 3, fun _ => false, false,
          fun _ => false, true, codes "consolidated_X.wav"⟩ 5 =
      (.ceilingBreak 3,
        [(chunkName sampleSession 2, ⟨16000, [2]⟩),
         (chunkName sampleSession 1, ⟨16000, [1]⟩),
         (chunkName sampleSession 0, ⟨16000, [0]⟩)]) := by
  have h := ceiling_enforced
    ⟨sampleSession, 16000, fun i => [(i : Int)], 3, fun _ => false, false,
      fun _ => false, true, codes "consolidated_X.wav"⟩ 3
    rfl (by decide) (fun _ => rfl) (fun _ => rfl) 5 (by decide)
  rw [h.1]
  decide

/-- Session with ceiling 1 that is never interrupted. -/
def cfgCeilOne : SessCfg :=
  ⟨sampleSession, 16000, fun _ => [7], 1, fun _ => false, false, fun _ => false,
    true, codes "consolidated_X.wav"⟩

/-- C4 counterexample. A session stopped by the chunk-count break exits
the try block normally: the KeyboardInterrupt handler, and with it the
consolidation, never runs, so the chunk file is left unmerged and
undeleted (and continuous_record returns None, not the token and
count). -/
theorem stop_consolidation_counterexample :
    continuousRecord cfgCeilOne 5 =
      (.ceilingBreak 1, [(chunkName sampleSession 0, ⟨16000, [7]⟩)]) ∧
    lookupFS (continuousRecord cfgCeilOne 5).2 (chunkName sampleSession 0) ≠ none ∧
    lookupFS (continuousRecord cfgCeilOne 5).2 (codes "consolidated_X.wav") = none := by
  decide

/-- C4 amended. Only a KeyboardInterrupt stop consolidates: the handler
merges the session chunks into the output file and deletes them, while
a ceiling stop leaves the chunk files in place unconsolidated; in both
cases the token and count are printed, not returned (the model result
carries the observed chunk_num). -/
theorem session_stop_behavior :
    (∀ (cfg : SessCfg) (k : Nat),
        (∀ i, i < k → cfg.stopAt i = false) → cfg.stopAt k = true →
        (∀ i, (cfg.hasCallback && cfg.cbFails i) = false) →
        cfg.maxRecordings = 0 → cfg.doConsolidate = true →
        globMatch cfg.session cfg.outName = false →
        0 < k → k ≤ 10000 →
        ∀ fuel, k < fuel →
          continuousRecord cfg fuel =
            (.interrupted k,
              [(cfg.outName,
                ⟨cfg.rate, ((List.range k).map cfg.chunkData).flatten⟩)])) ∧
    (∀ (cfg : SessCfg) (m : Nat),
        cfg.maxRecordings = (m : Int) → 0 < m →
        (∀ i, cfg.stopAt i = false) →
        (∀ i, (cfg.hasCallback && cfg.cbFails i) = false) →
        ∀ fuel, m ≤ fuel →
          continuousRecord cfg fuel = (.ceilingBreak m, chunkFilesDesc cfg 0 m)) := by
  constructor
  · intro cfg k hstop hk hcb hm hdc hout hkpos hk4 fuel hfuel
    have hmh : ∀ i, i < k →
        ¬(cfg.maxRecordings ≠ 0 ∧ ((i + 1 : Nat) : Int) ≥ cfg.maxRecordings) := by
      intro i hi
      rw [hm]
      simp
    have hrun := run_to_stop cfg k hstop hk hcb hmh fuel 0 [] (by omega) (by omega)
    rw [continuousRecord, hrun, hdc, if_pos rfl]
    simp only [Nat.sub_zero, List.append_nil]
    have hps : chunkFilesDesc cfg 0 k =
        (((List.range k).map (fun i => (i, cfg.chunkData i))).map
          (chunkEntry cfg.session cfg.rate)).reverse := by
      unfold chunkFilesDesc
      rw [← List.range_eq_range', ← List.map_reverse, ← List.map_reverse, List.map_map]
      rfl
    have hcon := consolidate_spec cfg.session cfg.rate
      ((List.range k).map (fun i => (i, cfg.chunkData i)))
      (chunkFilesDesc cfg 0 k) cfg.outName
      (by
        intro hemp
        rw [List.map_eq_nil_iff, List.range_eq_nil] at hemp
        omega)
      (by
        intro p hp
        obtain ⟨i, hi, rfl⟩ := List.mem_map.mp hp
        have := List.mem_range.mp hi
        omega)
      (by
        rw [List.map_map]
        have : (Prod.fst ∘ fun i => ((i : Nat), cfg.chunkData i)) = id := rfl
        rw [this, List.map_id]
        exact List.nodup_range k)
      (by
        rw [hps]
        exact List.reverse_perm _)
      hout
    rw [hcon]
    have hsorted : List.Sorted (fun p q : Nat × List Int => p.1 ≤ q.1)
        ((List.range k).map (fun i => (i, cfg.chunkData i))) := by
      rw [List.Sorted, List.pairwise_map]
      exact (List.pairwise_lt_range k).imp (fun h => Nat.le_of_lt h)
    have hsort : seqSort ((List.range k).map (fun i => (i, cfg.chunkData i))) =
        (List.range k).map (fun i => (i, cfg.chunkData i)) :=
      List.Sorted.insertionSort_eq hsorted
    rw [hsort, List.map_map]
    rfl
  · intro cfg m hm hmpos hstop hcb fuel hfuel
    have h := run_to_ceiling cfg m hm hmpos hstop hcb fuel 0 [] hmpos (by omega)
    rw [continuousRecord, h]
    simp

/-- Session interrupted during the capture of chunk 2. -/
def cfgStopAt2 : SessCfg :=
  ⟨sampleSession, 16000, fun i => [(i : Int)], 0, fun i => i == 2, false,
    fun _ => false, true, codes "consolidated_X.wav"⟩

/-- Witness for the amended C4: interrupt during chunk 2 consolidates
chunks 0 and 1 into the output file and deletes them. -/
theorem session_stop_behavior_witness :
    continuousRecord cfgStopAt2 5 =
      (.interrupted 2, [(codes "consolidated_X.wav", ⟨16000, [0, 1]⟩)]) := by
  have h := session_stop_behavior.1 cfgStopAt2 2 (by decide) rfl (fun _ => rfl)
    rfl rfl (by decide) (by decide) (by decide) 5 (by decide)
  rw [h]
  decide

/-- Session whose per-chunk callback raises on chunk 0. -/
def cfgCbFail : SessCfg :=
  ⟨sampleSession, 16000, fun i => [(i : Int)], 0, fun _ => false, true,
    fun i => i == 0, true, codes "consolidated_X.wav"⟩

/-- C5 counterexample. The loop has no try/except around the callback:
an ordinary exception raised by the callback on chunk 0 propagates out
of continuous_record (it is not a KeyboardInterrupt, so the handler
does not catch it), the session records no further chunk, and no
consolidation happens — the chunk file is left behind. -/
theorem callback_failure_counterexample :
    continuousRecord cfgCbFail 5 =
      (.callbackError 0, [(chunkName sampleSession 0, ⟨16000, [0]⟩)]) ∧
    lookupFS (continuousRecord cfgCbFail 5).2 (codes "consolidated_X.wav") = none := by
  decide

/-- C5 amended. The first callback failure, on chunk k, aborts the
session at once: chunk k and its predecessors remain on disk, the
exception propagates to the caller, and consolidation does not run. -/
theorem callback_failure_aborts_session (cfg : SessCfg) (k : Nat)
    (hstop : ∀ i, i ≤ k → cfg.stopAt i = false)
    (hcbtrue : cfg.hasCallback = true)
    (hcbf : ∀ i, i < k → cfg.cbFails i = false)
    (hcbk : cfg.cbFails k = true)
    (hm : cfg.maxRecordings = 0)
    (fuel : Nat) (hfuel : k < fuel) :
    continuousRecord cfg fuel = (.callbackError k, chunkFilesDesc cfg 0 (k + 1)) := by
  have hmh : ∀ i, i < k →
      ¬(cfg.maxRecordings ≠ 0 ∧ ((i + 1 : Nat) : Int) ≥ cfg.maxRecordings) := by
    intro i hi
    rw [hm]
    simp
  have h := run_to_cbfail cfg k hstop hcbtrue hcbf hcbk hmh fuel 0 [] (by omega) (by omega)
  rw [continuousRecord, h]
  simp

/-- Witness for the amended C5: callback failing on chunk 1 ends the run
with chunks 0 and 1 on disk, unconsolidated. -/
theorem callback_failure_aborts_session_witness :
    continuousRecord
        ⟨sampleSession, 16000, fun i => [(i : Int)], 0, fun _ => false, true,
          fun i => i == 1, true, codes "consolidated_X.wav"⟩ 5 =
      (.callbackError 1,
        [(chunkName sampleSession 1, ⟨16000, [1]⟩),
         (chunkName sampleSession 0, ⟨16000, [0]⟩)]) := by
  have h := callback_failure_aborts_session
    ⟨sampleSession, 16000, fun i => [(i : Int)], 0, fun _ => false, true,
      fun i => i == 1, true, codes "consolidated_X.wav"⟩ 1
    (by decide) rfl (by decide) rfl rfl 5 (by decide)
  rw [h]
  decide

/-- Session interrupted during the capture of chunk 0, with the
interrupt-handler consolidation enabled. -/
def cfgStopAt0 : SessCfg :=
  ⟨sampleSession, 16000, fun i => [(i : Int)], 0, fun i => i == 0, false,
    fun _ => false, true, codes "consolidated_X.wav"⟩

/-- C6 counterexample. A KeyboardInterrupt delivered while chunk 0 is
still being captured aborts the blocking capture before the file write:
the stop takes effect immediately, chunk 0 has no file, the reported
count is 0, and consolidation finds nothing. -/
theorem cancellation_boundary_counterexample :
    continuousRecord cfgStopAt0 5 = (.interrupted 0, []) ∧
    lookupFS (continuousRecord cfgStopAt0 5).2 (chunkName sampleSession 0) = none := by
  decide

/-- C6 amended. A stop delivered during the capture of chunk k aborts
that capture: chunk k gets no file, the count is k, and the directory
holds files for exactly the completed chunks 0..k-1 (every completed
chunk is present and counted; none is omitted). Stated with the
handler consolidation off so the untouched chunk files are visible. -/
theorem cancellation_boundary_behavior (cfg : SessCfg) (k : Nat)
    (hstop : ∀ i, i < k → cfg.stopAt i = false)
    (hk : cfg.stopAt k = true)
    (hcb : ∀ i, (cfg.hasCallback && cfg.cbFails i) = false)
    (hm : cfg.maxRecordings = 0)
    (hnc : cfg.doConsolidate = false)
    (hk4 : k < 10000)
    (fuel : Nat) (hfuel : k < fuel) :
    continuousRecord cfg fuel = (.interrupted k, chunkFilesDesc cfg 0 k) ∧
    chunkName cfg.session k ∉ (chunkFilesDesc cfg 0 k).map Prod.fst ∧
    ∀ i, i < k → chunkName cfg.session i ∈ (chunkFilesDesc cfg 0 k).map Prod.fst := by
  have hkeys : (chunkFilesDesc cfg 0 k).map Prod.fst =
      ((List.range k).map (chunkName cfg.session)).reverse := by
    unfold chunkFilesDesc
    rw [List.map_map, ← List.range_eq_range', ← List.map_reverse]
    rfl
  refine ⟨?_, ?_, ?_⟩
  · have hmh : ∀ i, i < k →
        ¬(cfg.maxRecordings ≠ 0 ∧ ((i + 1 : Nat) : Int) ≥ cfg.maxRecordings) := by
      intro i hi
      rw [hm]
      simp
    have h := run_to_stop cfg k hstop hk hcb hmh fuel 0 [] (by omega) (by omega)
    rw [continuousRecord, h, hnc]
    simp
  · rw [hkeys]
    intro hmem
    rw [List.mem_reverse] at hmem
    obtain ⟨i, hi, hie⟩ := List.mem_map.mp hmem
    have hik : i < k := List.mem_range.mp hi
    have : i = k := chunkName_inj cfg.session (by omega) hk4 hie
    omega
  · intro i hik
    rw [hkeys, List.mem_reverse]
    exact List.mem_map.mpr ⟨i, List.mem_range.mpr hik, rfl⟩

/-- Witness for the amended C6: interrupt during chunk 2 leaves exactly
chunks 0 and 1 on disk and reports count 2. -/
theorem cancellation_boundary_behavior_witness :
    continuousRecord
        ⟨sampleSession, 16000, fun i => [(i : Int)], 0, fun i => i == 2, false,
          fun _ => false, false, codes "consolidated_X.wav"⟩ 5 =
      (.interrupted 2,
        [(chunkName sampleSession 1, ⟨16000, [1]⟩),
         (chunkName sampleSession 0, ⟨16000, [0]⟩)]) := by
  have h := cancellation_boundary_behavior
    ⟨sampleSession, 16000, fun i => [(i : Int)], 0, fun i => i == 2, false,
      fun _ => false, false, codes "consolidated_X.wav"⟩ 2
    (by decide) rfl (fun _ => rfl) rfl rfl (by decide) 5 (by decide)
  rw [h.1]
  decide

/-! ### WhisperTranscriber: transcribe and _save_transcript -/

/-- The transcription result returned by the external engine: the
recognized text plus its ordered timed segments (kept as raw serialized
entries; their inner structure never matters here). -/
structure TransResult where
  text : List Nat
  segments : List (List Nat)
deriving DecidableEq, Repr

/-- A persisted transcript artifact: the plain-text file (header with
the source path, then the recognized text) or the structured file
holding the full result. -/
inductive TransFile where
  | textFile (sourcePath : FName) (body : List Nat)
  | structuredFile (r : TransResult)
deriving DecidableEq, Repr

/-- The transcripts directory. -/
abbrev TFS := List (FName × TransFile)

/-- Base name f-string "transcript_{audio_path.stem}_{timestamp}". -/
def transcriptBase (stem timestamp : FName) : FName :=
  codes "transcript_" ++ stem ++ codes "_" ++ timestamp

/-- WhisperTranscriber._save_transcript: writes the .txt file first and
the .json file second; a failing write raises at that point, so a txt
failure leaves the directory untouched and a json failure leaves only
the txt file. The Bool result records whether both writes succeeded. -/
def saveTranscript (tfs : TFS) (stem timestamp sourcePath : FName)
    (r : TransResult) (txtOk jsonOk : Bool) : Bool × TFS :=
  if txtOk then
    let tfs1 : TFS :=
      (transcriptBase stem timestamp ++ codes ".txt",
        .textFile sourcePath r.text) :: tfs
    if jsonOk then
      (true,
        (transcriptBase stem timestamp ++ codes ".json",
          .structuredFile r) :: tfs1)
    else (false, tfs1)
  else (false, tfs)

/-- WhisperTranscriber.transcribe on an engine result r (the lazily
loaded model handle does not affect the files written): when save is
set it persists via _save_transcript, otherwise it only returns r. -/
def transcribeFS (tfs : TFS) (stem timestamp sourcePath : FName)
    (r : TransResult) (save txtOk jsonOk : Bool) : TransResult × Bool × TFS :=
  if save then
    let s := saveTranscript tfs stem timestamp sourcePath r txtOk jsonOk
    (r, s.1, s.2)
  else (r, true, tfs)

/-- C9. A transcribe call with save=true whose writes succeed persists
exactly two new files, the text and the structured transcript, sharing
the base name transcript_(stem)_(timestamp); and when writing the text
file fails, the structured file is not written either — zero transcript
files are persisted. -/
theorem transcript_pairing (tfs : TFS) (stem timestamp src : FName)
    (r : TransResult) (jsonOk : Bool) :
    (transcribeFS tfs stem timestamp src r true true true).2.2 =
      (transcriptBase stem timestamp ++ codes ".json", .structuredFile r) ::
        (transcriptBase stem timestamp ++ codes ".txt", .textFile src r.text) ::
          tfs ∧
    (transcribeFS tfs stem timestamp src r true false jsonOk).2.2 = tfs := by
  constructor
  · rfl
  · simp [transcribeFS, saveTranscript]

/-! ### main.py interactive selection -/

/-- Python list indexing, wrapping negative indices from the end and
raising IndexError (none) outside the range. -/
def pyIndex {α : Type} (l : List α) (i : Int) : Option α :=
  if 0 ≤ i then
    if h : i.toNat < l.length then some (l.get ⟨i.toNat, h⟩) else none
  else
    if h2 : 0 ≤ (l.length : Int) + i ∧ ((l.length : Int) + i).toNat < l.length then
      some (l.get ⟨((l.length : Int) + i).toNat, h2.2⟩)
    else none

/-- WhisperNotetaker._transcribe_recording selection: int(choice)
(none models a non-numeric input raising ValueError) then
recordings[int(choice) - 1]; ValueError and IndexError are caught and
abort the operation (none). A some result is the recording that is
then transcribed. -/
def transcribeSelection (recordings : List FName) (choice : Option Int) :
    Option FName :=
  match choice with
  | none => none
  | some c => pyIndex recordings (c - 1)

/-- WhisperNotetaker._delete_recording selection: it runs only when the
input is all digits (a nonnegative numeral, none otherwise), indexes
recordings[int(choice) - 1], and unlinks the selected file after a
y confirmation. A some result is the file that is deleted. -/
def deleteSelection (recordings : List FName) (choice : Option Nat)
    (confirm : Bool) : Option FName :=
  match choice with
  | none => none
  | some d =>
      match pyIndex recordings ((d : Int) - 1) with
      | none => none
      | some f => if confirm then some f else none

/-- Two consolidated recordings as listed by the menu. -/
def recA : FName := codes "consolidated_A.wav"

/-- A second listed recording. -/
def recB : FName := codes "consolidated_B.wav"

/-- C10 counterexample. Entering 0 for a two-item list references no
list index 1..2, yet int(choice) - 1 = -1 wraps Python-style to the
last listed recording: the operation is not aborted — that recording is
transcribed, and in the delete menu (0 passes isdigit) it is deleted
after confirmation. -/
theorem selection_out_of_range_counterexample :
    ¬(1 ≤ (0 : Int) ∧ (0 : Int) ≤ ([recA, recB] : List FName).length) ∧
    transcribeSelection [recA, recB] (some 0) = some recB ∧
    deleteSelection [recA, recB] (some 0) true = some recB := by
  refine ⟨by decide, by decide, by decide⟩

/-- C10 amended. The selection aborts with no side effect exactly when
int(choice) - 1 falls outside the Python index range of the listed
recordings — numeric choices above N or below 1-N, or a non-numeric
input; choices 1..N select the listed entry; choices 1-N..0 wrap around
and select the entry counted from the end, which the operation then
processes. The delete menu additionally admits only digit inputs, so
there 0 wraps to the last listed entry. -/
theorem selection_bounds_behavior (recordings : List FName) (c : Int) :
    ((c > (recordings.length : Int) ∨ c < 1 - (recordings.length : Int)) →
        transcribeSelection recordings (some c) = none) ∧
    transcribeSelection recordings none = none ∧
    (1 ≤ c → c ≤ (recordings.length : Int) →
        transcribeSelection recordings (some c) = recordings[(c - 1).toNat]? ∧
        recordings[(c - 1).toNat]? ≠ none) ∧
    (1 - (recordings.length : Int) ≤ c → c ≤ 0 → 0 < recordings.length →
        transcribeSelection recordings (some c) =
          recordings[((recordings.length : Int) + c - 1).toNat]? ∧
        recordings[((recordings.length : Int) + c - 1).toNat]? ≠ none) ∧
    (0 < recordings.length →
        deleteSelection recordings (some 0) true =
          recordings[recordings.length - 1]?) := by
  refine ⟨?_, rfl, ?_, ?_, ?_⟩
  · intro hc
    simp only [transcribeSelection, pyIndex]
    rcases hc with hc | hc
    · rw [if_pos (by omega), dif_neg (by omega)]
    · rw [if_neg (by omega), dif_neg (by omega)]
  · intro h1 h2
    simp only [transcribeSelection, pyIndex]
    have hlt : (c - 1).toNat < recordings.length := by omega
    rw [if_pos (by omega), dif_pos hlt, List.getElem?_eq_getElem hlt]
    exact ⟨by simp, by simp⟩
  · intro h1 h2 h3
    simp only [transcribeSelection, pyIndex]
    have he : (recordings.length : Int) + (c - 1) = (recordings.length : Int) + c - 1 := by
      ring
    have hcond : 0 ≤ (recordings.length : Int) + (c - 1) ∧
        ((recordings.length : Int) + (c - 1)).toNat < recordings.length := by
      constructor <;> omega
    rw [if_neg (by omega), dif_pos hcond]
    have hlt : ((recordings.length : Int) + c - 1).toNat < recordings.length := by omega
    rw [List.getElem?_eq_getElem hlt]
    constructor
    · simp only [List.get_eq_getElem, Option.some.injEq]
      congr 1
      omega
    · simp
  · intro h3
    simp only [deleteSelection, pyIndex]
    have hcond : 0 ≤ (recordings.length : Int) + (((0 : Nat) : Int) - 1) ∧
        ((recordings.length : Int) + (((0 : Nat) : Int) - 1)).toNat <
          recordings.length := by
      constructor <;> omega
    have hidx : ((recordings.length : Int) + (((0 : Nat) : Int) - 1)).toNat =
        recordings.length - 1 := by omega
    rw [if_neg (by omega), dif_pos hcond]
    have hlt : recordings.length - 1 < recordings.length := by omega
    rw [List.getElem?_eq_getElem hlt]
    simp [show ((recordings.length : Int) + -1).toNat = recordings.length - 1 from by omega]

/-- Witness for the amended C10 on a two-item list: 3 aborts, 0 wraps to
the second entry, and the delete menu with 0 deletes it. -/
theorem selection_bounds_behavior_witness :
    transcribeSelection [recA, recB] (some 3) = none ∧
    transcribeSelection [recA, recB] (some 0) = some recB ∧
    deleteSelection [recA, recB] (some 0) true = some recB := by
  refine ⟨?_, ?_, ?_⟩
  · exact (selection_bounds_behavior [recA, recB] 3).1 (by decide)
  · have h := ((selection_bounds_behavior [recA, recB] 0).2.2.2.1
      (by decide) (by decide) (by decide)).1
    rw [h]
    decide
  · have h := (selection_bounds_behavior [recA, recB] 0).2.2.2.2 (by decide)
    rw [h]
    decide
